import Mathlib

/-
Verification of the persistent copy-on-write trie and its MVCC wrapper
(`sjtu::Trie`, `sjtu::TrieStore` from `src/trie/src.hpp`).

Embedding conventions:

* Heap allocation and pointer identity.  Every `TrieNode` in the C++ code is a
  heap object managed by `shared_ptr`; claims about structural sharing and the
  `Trie::operator==` root comparison are about *pointer* identity.  We model an
  allocation counter: each node carries a field `nid : Nat`, the "address" it
  was allocated at.  Operations that allocate (`Clone`, `make_shared`,
  `make_unique`) take the current counter, stamp the new node with it and
  return the bumped counter.  Two live nodes built under this discipline have
  equal `nid` iff they are the same allocation, so term equality of nodes
  models pointer identity and `nid` equality models `shared_ptr` equality.

* `std::map<char, std::shared_ptr<const TrieNode>>` is modelled as an
  association list `List (Char × TrieNode)` with `findChild` (= `find`),
  `setChild` (= `operator[]` assignment) and `eraseChild` (= `erase`).  No
  operation of the modelled core iterates over the map, so the entry order is
  unobservable; `eraseChild` drops every binding of the character, which on the
  unique-key lists a `std::map` represents is exactly `erase`.

* The type-erased value (`TrieNodeWithValue<T>` deriving from `TrieNode`) is a
  field `value : Option (Nat × Nat)`: `some (tag, v)` is a `TrieNodeWithValue`
  whose static type parameter has runtime tag `tag` and whose payload is `v`;
  `none` is a plain `TrieNode`.  The `dynamic_cast<const TrieNodeWithValue<T>*>`
  in `Get<T>` succeeds exactly when the value is present with the requested
  tag.  The `is_value_node_` flag is modelled separately (field
  `is_value_node`), because `Remove` clears the flag while leaving the stored
  value in place.

* Keys (`std::string_view`) are `List Char`; `size_t` version numbers are `Nat`
  with the 64-bit sentinel `static_cast<size_t>(-1)` spelled `SIZEMAX`.
-/

/-- Size of `static_cast<size_t>(-1)` on the (64-bit) target: the sentinel the
C++ `TrieStore::Get` uses for "latest version". -/
def SIZEMAX : Nat := 2 ^ 64 - 1

/-- A trie node: allocation id, the `is_value_node_` flag, the type-erased
value (`some (typeTag, payload)` iff the dynamic type is
`TrieNodeWithValue<T>`), and the `children_` map. -/
inductive TrieNode : Type where
  | mk (nid : Nat) (is_value_node : Bool) (value : Option (Nat × Nat))
      (children : List (Char × TrieNode)) : TrieNode

/-- Allocation id ("address") of a node. -/
def TrieNode.nid : TrieNode → Nat
  | .mk i _ _ _ => i

/-- The `is_value_node_` flag. -/
def TrieNode.is_value_node : TrieNode → Bool
  | .mk _ b _ _ => b

/-- The type-erased stored value: `some (tag, v)` iff the node is a
`TrieNodeWithValue`. -/
def TrieNode.value : TrieNode → Option (Nat × Nat)
  | .mk _ _ v _ => v

/-- The `children_` map of the node. -/
def TrieNode.children : TrieNode → List (Char × TrieNode)
  | .mk _ _ _ c => c

/-- Model of `children_.find(c)`. -/
def findChild (c : Char) : List (Char × TrieNode) → Option TrieNode
  | [] => none
  | (d, n) :: rest => if c = d then some n else findChild c rest

/-- Model of `children_[c] = n`: replace the binding of `c` if present,
otherwise add one. -/
def setChild (c : Char) (n : TrieNode) : List (Char × TrieNode) → List (Char × TrieNode)
  | [] => [(c, n)]
  | (d, m) :: rest => if c = d then (c, n) :: rest else (d, m) :: setChild c n rest

/-- Model of `children_.erase(c)`: drop the binding of `c`. -/
def eraseChild (c : Char) : List (Char × TrieNode) → List (Char × TrieNode)
  | [] => []
  | (d, m) :: rest => if c = d then eraseChild c rest else (d, m) :: eraseChild c rest

/-- Model of the virtual `Clone()`: a fresh allocation copying `children_`,
`is_value_node_` and (for `TrieNodeWithValue`) the shared `value_`. -/
def cloneNode (n : TrieNode) (fresh : Nat) : TrieNode :=
  .mk fresh n.is_value_node n.value n.children

/-- Walk the node's children along a key, one character at a time, failing as
soon as a character is missing: the traversal loop shared by `Get`, `Put` and
`Remove`. -/
def TrieNode.walk : TrieNode → List Char → Option TrieNode
  | n, [] => some n
  | n, c :: rest =>
    match findChild c n.children with
    | none => none
    | some ch => ch.walk rest

/-- A `Trie` is a (possibly null) shared root pointer (`root_`). -/
structure Trie where
  root : Option TrieNode

/-- The default-constructed empty trie (`root_ = nullptr`). -/
def Trie.empty : Trie := ⟨none⟩

/-- Model of `Trie::operator==`: `shared_ptr` equality of the roots, i.e. both
null or the same allocation. -/
def Trie.eqTrie (a b : Trie) : Bool :=
  match a.root, b.root with
  | none, none => true
  | some r, some s => r.nid == s.nid
  | _, _ => false

/-- Model of `Trie::Get<T>`: descend the key (null root or a missing character
gives `nullptr`), then require the landing node's `is_value_node_` flag and a
successful `dynamic_cast` to `TrieNodeWithValue<T>` (value present with the
requested tag). -/
def Trie.Get (t : Trie) (tag : Nat) (key : List Char) : Option Nat :=
  match t.root with
  | none => none
  | some r =>
    match r.walk key with
    | none => none
    | some n =>
      if n.is_value_node then
        match n.value with
        | some (u, w) => if u = tag then some w else none
        | none => none
      else none

/-- Restriction of `Trie.Get` to a node (the part of `Get` below the null-root check);
used to state lemmas. -/
def nodeGet (n : TrieNode) (tag : Nat) (key : List Char) : Option Nat :=
  match n.walk key with
  | none => none
  | some m =>
    if m.is_value_node then
      match m.value with
      | some (u, w) => if u = tag then some w else none
      | none => none
    else none

/-- Restriction of `Trie.containsKey` to a node: the key walk succeeds and lands on a
node whose `is_value_node_` flag is set. -/
def nodeContains (n : TrieNode) (key : List Char) : Bool :=
  match n.walk key with
  | none => false
  | some m => m.is_value_node

/-- Whether the key lands on a node whose `is_value_node_` flag is set — the
condition under which `Remove` actually removes (and `Get`, modulo the type
check, finds the key). -/
def Trie.containsKey (t : Trie) (key : List Char) : Bool :=
  match t.root with
  | none => false
  | some r =>
    match r.walk key with
    | none => false
    | some n => n.is_value_node

/-- The node reached from the root along `path`, if any: the "subtree at a
position", used to state structural sharing. -/
def Trie.subtreeAt (t : Trie) (path : List Char) : Option TrieNode :=
  match t.root with
  | none => none
  | some r => r.walk path

/-- Recursive core of `Trie::Put`.  The C++ builds the same tree iteratively
with an explicit stack: at each consumed character it clones the current node
(or allocates a fresh empty node when there is none, which covers both the
`root_ == nullptr` branch — where every node on the path is freshly created —
and the missing-child case of the main branch), pushes `(clone, c)`, descends,
and finally allocates a `TrieNodeWithValue` carrying the landing position's
existing children and the new value; unwinding the stack re-links each clone's
child at its character to the node built below it.  Net effect per level:
the clone with its `c`-binding replaced by the recursive result (the C++'s
interim `children_[c] =` assignment during descent is overwritten by the
unwinding assignment before anything reads it and is dropped here).
Allocation ids are stamped from the threaded counter in recursion order. -/
def putGo (tag v : Nat) : Option TrieNode → List Char → Nat → TrieNode × Nat
  | node, [], ctr =>
    (.mk ctr true (some (tag, v))
      (match node with
       | none => []
       | some n => n.children), ctr + 1)
  | node, c :: rest, ctr =>
    let base : TrieNode :=
      match node with
      | none => .mk ctr false none []
      | some n => cloneNode n ctr
    let pr := putGo tag v (findChild c base.children) rest (ctr + 1)
    (.mk ctr base.is_value_node base.value (setChild c pr.1 base.children), pr.2)

/-- Model of `Trie::Put<T>`: path-copy the key and return the new root wrapped
in a `Trie`; the threaded allocation counter is returned alongside. -/
def Trie.Put (t : Trie) (key : List Char) (tag v : Nat) (ctr : Nat) : Trie × Nat :=
  let pr := putGo tag v t.root key ctr
  (⟨some pr.1⟩, pr.2)

/-- Recursive core of `Trie::Remove`.  `none` models the C++ `return *this`
no-op (a character missing along the path, or the landing node's
`is_value_node_` flag unset).  Otherwise each node on the path is cloned; the
landing clone gets its flag cleared (its stored `value_` and children stay);
unwinding, a processed child with no children left and flag unset is erased
from its (cloned) parent's map, else the parent's `c`-binding points at it. -/
def removeGo : TrieNode → List Char → Nat → Option (TrieNode × Nat)
  | n, [], ctr =>
    if n.is_value_node then
      some (.mk ctr false n.value n.children, ctr + 1)
    else none
  | n, c :: rest, ctr =>
    match findChild c n.children with
    | none => none
    | some child =>
      match removeGo child rest (ctr + 1) with
      | none => none
      | some pr =>
        let children' :=
          if pr.1.children.isEmpty && !pr.1.is_value_node then
            eraseChild c n.children
          else
            setChild c pr.1 n.children
        some (.mk ctr n.is_value_node n.value children', pr.2)

/-- Model of `Trie::Remove`: null root or an absent key returns the original
trie (root-pointer identical); otherwise the cloned-and-pruned root is
returned, collapsed to the canonical empty trie when it has no children and no
value flag. -/
def Trie.Remove (t : Trie) (key : List Char) (ctr : Nat) : Trie × Nat :=
  match t.root with
  | none => (t, ctr)
  | some r =>
    match removeGo r key ctr with
    | none => (t, ctr)
    | some pr =>
      if pr.1.children.isEmpty && !pr.1.is_value_node then
        (⟨none⟩, pr.2)
      else
        (⟨some pr.1⟩, pr.2)

/-- Model of `TrieStore`: the append-only `snapshots_` vector of tries plus the
allocation counter threaded through the trie operations (a model artifact,
standing for the heap allocator; the C++ object holds no counter). -/
structure TrieStore where
  snapshots : List Trie
  ctr : Nat

/-- The freshly constructed store: `snapshots_{1}` holds one
default-constructed (empty) `Trie`. -/
def TrieStore.new : TrieStore := ⟨[⟨none⟩], 0⟩

/-- Model of `TrieStore::get_version`: `snapshots_.size() - 1`, or `0` when the
vector is empty. -/
def TrieStore.get_version (s : TrieStore) : Nat :=
  if s.snapshots.isEmpty then 0 else s.snapshots.length - 1

/-- Model of `TrieStore::Put<T>`: read `snapshots_.back()`, compute the new
trie, append it, and return the new `snapshots_.size() - 1`.  (`back()` on the
never-empty vector; the default is unreachable under the store invariant.) -/
def TrieStore.Put (s : TrieStore) (key : List Char) (tag v : Nat) : Nat × TrieStore :=
  let current := s.snapshots.getLastD ⟨none⟩
  let pr := current.Put key tag v s.ctr
  let snaps := s.snapshots ++ [pr.1]
  (snaps.length - 1, ⟨snaps, pr.2⟩)

/-- Model of `TrieStore::Remove`: compute `current.Remove(key)`; when the
result is `operator==`-equal to the current trie (the no-op case), return
`snapshots_.size() - 1` without appending; otherwise append and return the new
last index. -/
def TrieStore.Remove (s : TrieStore) (key : List Char) : Nat × TrieStore :=
  let current := s.snapshots.getLastD ⟨none⟩
  let pr := current.Remove key s.ctr
  if pr.1.eqTrie current then
    (s.snapshots.length - 1, s)
  else
    let snaps := s.snapshots ++ [pr.1]
    (snaps.length - 1, ⟨snaps, pr.2⟩)

/-- Model of `TrieStore::Get<T>`: resolve the `static_cast<size_t>(-1)`
sentinel (the default argument) to the last index — absence if the vector is
empty — take an explicitly supplied version as is, report absence when the
target is out of range, and otherwise run `Trie::Get` on the selected
snapshot.  The returned `ValueGuard` is modelled by the value it wraps. -/
def TrieStore.Get (s : TrieStore) (tag : Nat) (key : List Char) (version : Nat) : Option Nat :=
  let tv : Option Nat :=
    if version = SIZEMAX then
      if s.snapshots.isEmpty then none else some (s.snapshots.length - 1)
    else some version
  match tv with
  | none => none
  | some target =>
    if s.snapshots.length ≤ target then none
    else
      match (s.snapshots.getD target ⟨none⟩).Get tag key with
      | none => none
      | some v => some v

/-- A writer call against the store: the two mutators of `TrieStore`. -/
inductive StoreOp : Type where
  | put (key : List Char) (tag v : Nat) : StoreOp
  | rem (key : List Char) : StoreOp

/-- Apply one writer call to the store, keeping only the resulting store. -/
def applyOp (s : TrieStore) : StoreOp → TrieStore
  | .put key tag v => (s.Put key tag v).2
  | .rem key => (s.Remove key).2

/-- Apply a sequence of writer calls left to right. -/
def applyOps (s : TrieStore) : List StoreOp → TrieStore
  | [] => s
  | op :: rest => applyOps (applyOp s op) rest

/-- Whether `p` is an initial segment of `k`: positions `q` with
`pathPref q k = true` are exactly the nodes on the path `Put`/`Remove` copy;
everything else is off the path. -/
def pathPref : List Char → List Char → Bool
  | [], _ => true
  | _ :: _, [] => false
  | a :: as, b :: bs => if a = b then pathPref as bs else false

/-- The root of the trie satisfies a bound on its allocation id: true for the
null root, and `nid < bound` otherwise.  Every reachable allocation of a trie
built by the modelled operations with counter at most `bound` satisfies this,
so it is the precondition under which fresh allocations are distinct from the
old root. -/
def Trie.rootFresh (t : Trie) (bound : Nat) : Bool :=
  match t.root with
  | none => true
  | some r => r.nid < bound

@[simp]
theorem TrieNode.nid_mk (i : Nat) (b : Bool) (v : Option (Nat × Nat))
    (c : List (Char × TrieNode)) : (TrieNode.mk i b v c).nid = i := rfl

@[simp]
theorem TrieNode.is_value_node_mk (i : Nat) (b : Bool) (v : Option (Nat × Nat))
    (c : List (Char × TrieNode)) : (TrieNode.mk i b v c).is_value_node = b := rfl

@[simp]
theorem TrieNode.value_mk (i : Nat) (b : Bool) (v : Option (Nat × Nat))
    (c : List (Char × TrieNode)) : (TrieNode.mk i b v c).value = v := rfl

@[simp]
theorem TrieNode.children_mk (i : Nat) (b : Bool) (v : Option (Nat × Nat))
    (c : List (Char × TrieNode)) : (TrieNode.mk i b v c).children = c := rfl

@[simp]
theorem findChild_setChild_self (c : Char) (n : TrieNode) (l : List (Char × TrieNode)) :
    findChild c (setChild c n l) = some n := by
  induction l with
  | nil => simp [findChild, setChild]
  | cons hd tl ih =>
    obtain ⟨d, m⟩ := hd
    by_cases h : c = d <;> simp [findChild, setChild, h, ih]

theorem findChild_setChild_ne (c c' : Char) (n : TrieNode) (l : List (Char × TrieNode))
    (h : c' ≠ c) : findChild c' (setChild c n l) = findChild c' l := by
  induction l with
  | nil => simp [findChild, setChild, h]
  | cons hd tl ih =>
    obtain ⟨d, m⟩ := hd
    by_cases hcd : c = d
    · subst hcd
      simp [findChild, setChild, h]
    · by_cases hc'd : c' = d <;> simp [findChild, setChild, hcd, hc'd, ih]

@[simp]
theorem findChild_eraseChild_self (c : Char) (l : List (Char × TrieNode)) :
    findChild c (eraseChild c l) = none := by
  induction l with
  | nil => simp [findChild, eraseChild]
  | cons hd tl ih =>
    obtain ⟨d, m⟩ := hd
    by_cases h : c = d
    · subst h
      simp [eraseChild, ih]
    · simp [findChild, eraseChild, h, ih]

theorem findChild_eraseChild_ne (c c' : Char) (l : List (Char × TrieNode))
    (h : c' ≠ c) : findChild c' (eraseChild c l) = findChild c' l := by
  induction l with
  | nil => simp [eraseChild]
  | cons hd tl ih =>
    obtain ⟨d, m⟩ := hd
    by_cases hcd : c = d
    · subst hcd
      simp [findChild, eraseChild, h, ih]
    · by_cases hc'd : c' = d <;> simp [findChild, eraseChild, hcd, hc'd, ih]

@[simp]
theorem walk_nil (n : TrieNode) : n.walk [] = some n := rfl

theorem nodeGet_cons (n : TrieNode) (tag : Nat) (c : Char) (k : List Char) :
    nodeGet n tag (c :: k) =
      match findChild c n.children with
      | none => none
      | some ch => nodeGet ch tag k := by
  cases h : findChild c n.children <;> simp [nodeGet, TrieNode.walk, h]

theorem nodeGet_nil (n : TrieNode) (tag : Nat) :
    nodeGet n tag [] =
      if n.is_value_node then
        match n.value with
        | some (u, w) => if u = tag then some w else none
        | none => none
      else none := rfl

theorem Trie.Get_some_root (r : TrieNode) (tag : Nat) (key : List Char) :
    Trie.Get ⟨some r⟩ tag key = nodeGet r tag key := by
  cases h : r.walk key <;> simp [Trie.Get, nodeGet, h]

/-- A node with no children and a cleared flag answers every lookup with
absence. -/
theorem nodeGet_empty_node (n : TrieNode) (h1 : n.children = [])
    (h2 : n.is_value_node = false) (tag : Nat) (k : List Char) :
    nodeGet n tag k = none := by
  cases k with
  | nil => simp [nodeGet_nil, h2]
  | cons c rest => simp [nodeGet_cons, h1, findChild]

/-- After `putGo`, looking the written key back up lands on the freshly built
value node and yields the written payload. -/
theorem putGo_roundtrip (tag v : Nat) :
    ∀ (key : List Char) (node : Option TrieNode) (ctr : Nat),
      nodeGet (putGo tag v node key ctr).1 tag key = some v := by
  intro key
  induction key with
  | nil =>
    intro node ctr
    simp [putGo, nodeGet_nil]
  | cons c rest ih =>
    intro node ctr
    simp [putGo, nodeGet_cons, findChild_setChild_self, ih]

/-- The root built by `putGo` is always the allocation stamped with the
incoming counter value. -/
theorem putGo_nid (tag v : Nat) (node : Option TrieNode) (key : List Char) (ctr : Nat) :
    (putGo tag v node key ctr).1.nid = ctr := by
  cases key with
  | nil => simp [putGo]
  | cons c rest => simp [putGo]


/-- Walking to any position that is not on the written key's path reaches, in
the trie built by `putGo`, exactly the node the original tree has there (the
same allocation). -/
theorem putGo_off_path (tag v : Nat) :
    ∀ (k2 q : List Char) (node : Option TrieNode) (ctr : Nat),
      pathPref q k2 = false →
      ((putGo tag v node k2 ctr).1).walk q =
        (match node with
         | none => none
         | some n => n.walk q) := by
  intro k2
  induction k2 with
  | nil =>
    intro q node ctr hq
    cases q with
    | nil => simp [pathPref] at hq
    | cons c qt =>
      cases node with
      | none => simp [putGo, TrieNode.walk, findChild]
      | some n =>
        cases h : findChild c n.children <;>
          simp [putGo, TrieNode.walk, h]
  | cons c2 k2t ih =>
    intro q node ctr hq
    cases q with
    | nil => simp [pathPref] at hq
    | cons c qt =>
      cases node with
      | none =>
        by_cases hc : c = c2
        · subst hc
          have hq' : pathPref qt k2t = false := by simpa [pathPref] using hq
          have h1 := ih qt none (ctr + 1) hq'
          simp only [Option.isNone] at h1
          simp [putGo, TrieNode.walk, setChild, findChild, h1]
        · simp [putGo, TrieNode.walk, setChild, findChild, hc]
      | some n =>
        by_cases hc : c = c2
        · subst hc
          have hq' : pathPref qt k2t = false := by simpa [pathPref] using hq
          have h1 := ih qt (findChild c n.children) (ctr + 1) hq'
          simp [putGo, cloneNode, TrieNode.walk, findChild_setChild_self]
          rw [h1]
        · simp [putGo, cloneNode, TrieNode.walk, findChild_setChild_ne, hc]

theorem nodeContains_nil (n : TrieNode) : nodeContains n [] = n.is_value_node := rfl

theorem nodeContains_cons (n : TrieNode) (c : Char) (k : List Char) :
    nodeContains n (c :: k) =
      match findChild c n.children with
      | none => false
      | some ch => nodeContains ch k := by
  cases h : findChild c n.children <;> simp [nodeContains, TrieNode.walk, h]

theorem Trie.containsKey_some_root (r : TrieNode) (key : List Char) :
    Trie.containsKey ⟨some r⟩ key = nodeContains r key := rfl

/-- When the key is absent (the walk dies or the landing node's flag is
unset), `removeGo` reports the no-op case. -/
theorem removeGo_eq_none :
    ∀ (key : List Char) (n : TrieNode) (ctr : Nat),
      nodeContains n key = false → removeGo n key ctr = none := by
  intro key
  induction key with
  | nil =>
    intro n ctr h
    rw [nodeContains_nil] at h
    simp [removeGo, h]
  | cons c rest ih =>
    intro n ctr h
    rw [nodeContains_cons] at h
    cases hf : findChild c n.children with
    | none => simp [removeGo, hf]
    | some child =>
      rw [hf] at h
      have h' : nodeContains child rest = false := h
      simp [removeGo, hf, ih child (ctr + 1) h']

/-- The core removal lemma: a successful `removeGo` answers the removed key
with absence and every other key exactly as the original node does. -/
theorem removeGo_spec :
    ∀ (key : List Char) (n : TrieNode) (ctr : Nat) (pr : TrieNode × Nat),
      removeGo n key ctr = some pr →
      ∀ (tag : Nat) (k' : List Char),
        nodeGet pr.1 tag k' = if k' = key then none else nodeGet n tag k' := by
  intro key
  induction key with
  | nil =>
    intro n ctr pr hrm tag k'
    by_cases hv : n.is_value_node
    · simp [removeGo, hv] at hrm
      cases k' with
      | nil => simp [← hrm, nodeGet_nil]
      | cons c tl => simp [← hrm, nodeGet_cons]
    · simp [removeGo, hv] at hrm
  | cons c rest ih =>
    intro n ctr pr hrm tag k'
    cases hf : findChild c n.children with
    | none => simp [removeGo, hf] at hrm
    | some child =>
      cases hrg : removeGo child rest (ctr + 1) with
      | none => simp [removeGo, hf, hrg] at hrm
      | some cpr =>
        have h1 := ih child (ctr + 1) cpr hrg tag
        simp [removeGo, hf, hrg] at hrm
        by_cases hprune : (cpr.1.children.isEmpty && !cpr.1.is_value_node) = true
        · have hch : cpr.1.children = [] := by
            have := (Bool.and_eq_true _ _).mp hprune |>.1
            exact List.isEmpty_iff.mp this
          have hfl : cpr.1.is_value_node = false := by
            have := (Bool.and_eq_true _ _).mp hprune |>.2
            simpa using this
          rw [hprune] at hrm
          simp at hrm
          cases k' with
          | nil => simp [← hrm, nodeGet_nil]
          | cons c' tl =>
            by_cases hc : c' = c
            · subst hc
              simp [← hrm, nodeGet_cons, findChild_eraseChild_self]
              by_cases htl : tl = rest
              · simp [htl]
              · simp [htl, nodeGet_cons, hf]
                have h2 := h1 tl
                rw [if_neg htl] at h2
                rw [← h2, nodeGet_empty_node cpr.1 hch hfl]
            · simp [← hrm, nodeGet_cons, findChild_eraseChild_ne c c' _ hc, hc]
        · rw [Bool.not_eq_true] at hprune
          rw [hprune] at hrm
          simp at hrm
          cases k' with
          | nil => simp [← hrm, nodeGet_nil]
          | cons c' tl =>
            by_cases hc : c' = c
            · subst hc
              simp [← hrm, nodeGet_cons, findChild_setChild_self, hf]
              rw [h1 tl]
            · simp [← hrm, nodeGet_cons, findChild_setChild_ne c c' _ _ hc, hc]

theorem Trie.eqTrie_refl (t : Trie) : t.eqTrie t = true := by
  obtain ⟨root⟩ := t
  cases root <;> simp [Trie.eqTrie]

/-- Removal of an absent key is the identity: the original trie value comes
back (same root pointer) and no allocation is consumed. -/
theorem Trie.remove_noop (t : Trie) (key : List Char) (ctr : Nat)
    (h : t.containsKey key = false) : t.Remove key ctr = (t, ctr) := by
  obtain ⟨root⟩ := t
  cases root with
  | none => rfl
  | some r =>
    have h' : nodeContains r key = false := h
    simp [Trie.Remove, removeGo_eq_none key r ctr h']

/-- The store mutator `TrieStore::Put` appends one snapshot and returns the next version. -/
theorem storePut_version (s : TrieStore) (key : List Char) (tag v : Nat)
    (h : s.snapshots ≠ []) : (s.Put key tag v).1 = s.get_version + 1 := by
  have hlen : 0 < s.snapshots.length := List.length_pos.mpr h
  have hne : s.snapshots.isEmpty = false := by
    cases hs : s.snapshots.isEmpty
    · rfl
    · exact absurd (List.isEmpty_iff.mp hs) h
  simp [TrieStore.Put, TrieStore.get_version, hne]
  omega

/-- Both store mutators only ever append to `snapshots_`. -/
theorem applyOp_snapshots (s : TrieStore) (op : StoreOp) :
    ∃ ext, (applyOp s op).snapshots = s.snapshots ++ ext := by
  cases op with
  | put key tag v => exact ⟨_, rfl⟩
  | rem key =>
    simp only [applyOp, TrieStore.Remove]
    by_cases h : ((s.snapshots.getLastD ⟨none⟩).Remove key s.ctr).1.eqTrie
        (s.snapshots.getLastD ⟨none⟩) = true
    · rw [if_pos h]
      exact ⟨[], by simp⟩
    · rw [if_neg h]
      exact ⟨[((s.snapshots.getLastD ⟨none⟩).Remove key s.ctr).1], rfl⟩

/-- A whole sequence of writer calls only ever appends to `snapshots_`. -/
theorem applyOps_snapshots :
    ∀ (ops : List StoreOp) (s : TrieStore),
      ∃ ext, (applyOps s ops).snapshots = s.snapshots ++ ext := by
  intro ops
  induction ops with
  | nil => intro s; exact ⟨[], by simp [applyOps]⟩
  | cons op rest ih =>
    intro s
    obtain ⟨e1, he1⟩ := applyOp_snapshots s op
    obtain ⟨e2, he2⟩ := ih (applyOp s op)
    exact ⟨e1 ++ e2, by simp [applyOps, he2, he1]⟩

/-- A `TrieStore::Get` at a pinned in-range (non-sentinel) version is decided
entirely by the snapshot stored at that index. -/
theorem storeGet_pinned (s s' : TrieStore) (ext : List Trie)
    (hext : s'.snapshots = s.snapshots ++ ext) (tag : Nat) (k : List Char)
    (n : Nat) (hn : n < s.snapshots.length) (hs : n ≠ SIZEMAX) :
    s'.Get tag k n = s.Get tag k n := by
  have hn' : n < s'.snapshots.length := by
    rw [hext, List.length_append]
    omega
  simp only [TrieStore.Get, if_neg hs]
  rw [if_neg (by omega), if_neg (by omega), hext, List.getD_append _ _ _ _ hn]

/-- C1: Round-trip — for every key and value (any starting trie, including the
empty trie and the empty key), `Put(k, v)` followed by `Get<T>(k)` on the
returned trie yields the stored value. -/
theorem C1_put_get_roundtrip (t : Trie) (key : List Char) (tag v ctr : Nat) :
    ((t.Put key tag v ctr).1).Get tag key = some v := by
  show Trie.Get ⟨some (putGo tag v t.root key ctr).1⟩ tag key = some v
  rw [Trie.Get_some_root]
  exact putGo_roundtrip tag v key t.root ctr

/-- C2: Structural sharing — after `Put(k2, v2)`, the node reached at every
position `q` off the path of `k2` is the very node (same allocation) the old
trie has at `q`; in particular, when `k1` and `k2` share no character prefix
(both nonempty with distinct first characters), the subtree reachable for `k1`
is the identical node object. -/
theorem C2_structural_sharing (t : Trie) (k2 : List Char) (tag v ctr : Nat) :
    (∀ q, pathPref q k2 = false →
      ((t.Put k2 tag v ctr).1).subtreeAt q = t.subtreeAt q)
    ∧ (∀ k1, k1 ≠ [] → k2 ≠ [] → k1.head? ≠ k2.head? →
      ((t.Put k2 tag v ctr).1).subtreeAt k1 = t.subtreeAt k1) := by
  have hmain : ∀ q, pathPref q k2 = false →
      ((t.Put k2 tag v ctr).1).subtreeAt q = t.subtreeAt q := by
    intro q hq
    have hoff := putGo_off_path tag v k2 q t.root ctr hq
    obtain ⟨root⟩ := t
    cases root with
    | none => simpa [Trie.Put, Trie.subtreeAt] using hoff
    | some r => simpa [Trie.Put, Trie.subtreeAt] using hoff
  refine ⟨hmain, ?_⟩
  intro k1 h1 h2 hh
  apply hmain
  cases k1 with
  | nil => exact absurd rfl h1
  | cons a as =>
    cases k2 with
    | nil => exact absurd rfl h2
    | cons b bs =>
      have hab : a ≠ b := by
        intro hab
        exact hh (by simp [hab])
      simp [pathPref, hab]

theorem C2_structural_sharing_witness :
    (((Trie.empty.Put ['a'] 0 1 0).1.Put ['b'] 0 2 2).1).subtreeAt ['a'] =
      ((Trie.empty.Put ['a'] 0 1 0).1).subtreeAt ['a'] :=
  (C2_structural_sharing (Trie.empty.Put ['a'] 0 1 0).1 ['b'] 0 2 2).2
    ['a'] (by decide) (by decide) (by decide)

/-- C3: `Remove` preserves every other key — for any trie, removed key `k` and
any `k' ≠ k`, `Get` after `Remove(k)` equals `Get` before; concretely,
`Put("a",1)`, `Put("ab",2)`, `Remove("ab")` leaves `Get("a") = 1` with
`Get("ab")` absent, and `Remove("a")` on the same trie keeps the now-valueless
branching node so that `Get("ab") = 2` with `Get("a")` absent. -/
theorem C3_remove_preserves_other_keys :
    (∀ (t : Trie) (k k' : List Char) (tag ctr : Nat), k' ≠ k →
      ((t.Remove k ctr).1).Get tag k' = t.Get tag k')
    ∧ ((((Trie.empty.Put ['a'] 0 1 0).1.Put ['a', 'b'] 0 2 2).1.Remove ['a', 'b'] 5).1.Get
        0 ['a'] = some 1
      ∧ (((Trie.empty.Put ['a'] 0 1 0).1.Put ['a', 'b'] 0 2 2).1.Remove ['a', 'b'] 5).1.Get
        0 ['a', 'b'] = none)
    ∧ ((((Trie.empty.Put ['a'] 0 1 0).1.Put ['a', 'b'] 0 2 2).1.Remove ['a'] 5).1.Get
        0 ['a', 'b'] = some 2
      ∧ (((Trie.empty.Put ['a'] 0 1 0).1.Put ['a', 'b'] 0 2 2).1.Remove ['a'] 5).1.Get
        0 ['a'] = none) := by
  refine ⟨?_, by decide, by decide⟩
  intro t k k' tag ctr hk
  obtain ⟨root⟩ := t
  cases root with
  | none => rfl
  | some r =>
    cases hrg : removeGo r k ctr with
    | none => simp [Trie.Remove, hrg]
    | some pr =>
      have hs := removeGo_spec k r ctr pr hrg tag k'
      rw [if_neg hk] at hs
      by_cases hp : (pr.1.children.isEmpty && !pr.1.is_value_node) = true
      · have hch : pr.1.children = [] :=
          List.isEmpty_iff.mp ((Bool.and_eq_true _ _).mp hp).1
        have hfl : pr.1.is_value_node = false := by
          have := ((Bool.and_eq_true _ _).mp hp).2
          simpa using this
        have hnone : nodeGet pr.1 tag k' = none := nodeGet_empty_node pr.1 hch hfl tag k'
        simp only [Trie.Remove, hrg, hp, if_true]
        rw [Trie.Get_some_root, ← hs, hnone]
        rfl
      · rw [Bool.not_eq_true] at hp
        simp only [Trie.Remove, hrg, hp, Bool.false_eq_true, if_false]
        rw [Trie.Get_some_root, Trie.Get_some_root]
        exact hs

theorem C3_remove_preserves_other_keys_witness :
    ((((Trie.empty.Put ['a'] 0 1 0).1.Put ['a', 'b'] 0 2 2).1.Remove ['a', 'b'] 5).1.Get
      0 ['a'] =
      ((Trie.empty.Put ['a'] 0 1 0).1.Put ['a', 'b'] 0 2 2).1.Get 0 ['a']) :=
  C3_remove_preserves_other_keys.1
    ((Trie.empty.Put ['a'] 0 1 0).1.Put ['a', 'b'] 0 2 2).1 ['a', 'b'] ['a'] 0 5
    (by decide)

/-- C4: No-op `Remove` is the identity — whenever the key is not stored (empty
trie, a missing character on the path, or a landing node whose value flag is
unset), `Remove` returns the input trie itself (same root reference, also as
observed by `operator==`) and consumes no allocation. -/
theorem C4_noop_remove_identity (t : Trie) (k : List Char) (ctr : Nat)
    (h : t.containsKey k = false) :
    t.Remove k ctr = (t, ctr) ∧ ((t.Remove k ctr).1).eqTrie t = true := by
  have hno := Trie.remove_noop t k ctr h
  exact ⟨hno, by rw [hno]; exact Trie.eqTrie_refl t⟩

theorem C4_noop_remove_identity_witness :
    ((Trie.empty.Put ['a'] 0 1 0).1.Remove ['b'] 2 = ((Trie.empty.Put ['a'] 0 1 0).1, 2)
      ∧ (((Trie.empty.Put ['a'] 0 1 0).1.Remove ['b'] 2).1).eqTrie
          (Trie.empty.Put ['a'] 0 1 0).1 = true) :=
  C4_noop_remove_identity (Trie.empty.Put ['a'] 0 1 0).1 ['b'] 2 (by decide)

/-- C5: Version monotonicity at the store — `TrieStore::Put` returns exactly
one more than the prior `get_version()`, and `TrieStore::Remove` of a key
absent from the newest snapshot skips the append and returns the prior
`get_version()` unchanged. -/
theorem C5_version_monotonicity (s : TrieStore) (k k2 : List Char) (tag v : Nat)
    (h : s.snapshots ≠ []) :
    (s.Put k tag v).1 = s.get_version + 1
    ∧ ((s.snapshots.getLastD ⟨none⟩).containsKey k2 = false →
        (s.Remove k2).1 = s.get_version) := by
  refine ⟨storePut_version s k tag v h, ?_⟩
  intro habs
  have hne : s.snapshots.isEmpty = false := by
    cases hs : s.snapshots.isEmpty
    · rfl
    · exact absurd (List.isEmpty_iff.mp hs) h
  have hno := Trie.remove_noop (s.snapshots.getLastD ⟨none⟩) k2 s.ctr habs
  simp only [TrieStore.Remove]
  rw [hno]
  simp [Trie.eqTrie_refl, TrieStore.get_version, hne]

theorem C5_version_monotonicity_witness :
    (TrieStore.new.Put ['a'] 0 1).1 = TrieStore.new.get_version + 1
    ∧ (TrieStore.new.Remove ['b']).1 = TrieStore.new.get_version :=
  ⟨(C5_version_monotonicity TrieStore.new ['a'] ['b'] 0 1 (List.cons_ne_nil _ _)).1,
    (C5_version_monotonicity TrieStore.new ['a'] ['b'] 0 1 (List.cons_ne_nil _ _)).2
      (by decide)⟩

/-- C6: Append-only snapshots and pinned-version stability — any sequence of
`Put`/`Remove` calls only extends `snapshots_`, and a `Get` at a version `n`
that was already in range (and is not the "latest" sentinel) returns the same
result before and after those calls. -/
theorem C6_pinned_version_stability (s : TrieStore) (ops : List StoreOp)
    (n tag : Nat) (k : List Char)
    (hn : n < s.snapshots.length) (hs : n ≠ SIZEMAX) :
    (∃ ext, (applyOps s ops).snapshots = s.snapshots ++ ext)
    ∧ (applyOps s ops).Get tag k n = s.Get tag k n := by
  obtain ⟨ext, hext⟩ := applyOps_snapshots ops s
  exact ⟨⟨ext, hext⟩, storeGet_pinned s _ ext hext tag k n hn hs⟩

theorem C6_pinned_version_stability_witness :
    (∃ ext,
      (applyOps (TrieStore.new.Put ['a'] 0 1).2 [StoreOp.put ['a'] 0 9]).snapshots =
        ((TrieStore.new.Put ['a'] 0 1).2).snapshots ++ ext)
    ∧ (applyOps (TrieStore.new.Put ['a'] 0 1).2 [StoreOp.put ['a'] 0 9]).Get 0 ['a'] 1 =
        ((TrieStore.new.Put ['a'] 0 1).2).Get 0 ['a'] 1 :=
  C6_pinned_version_stability (TrieStore.new.Put ['a'] 0 1).2 [StoreOp.put ['a'] 0 9]
    1 0 ['a'] (by decide) (by decide)

/-- C7 counterexample: the version number `2^64 - 1` is outside
`[0, currentMax]` for this two-snapshot store, yet `TrieStore::Get` at that
version returns the stored value (the number collides with the
`static_cast<size_t>(-1)` "latest" sentinel), not absence. -/
theorem C7_counterexample :
    TrieStore.get_version (TrieStore.new.Put ['a'] 0 1).2 < SIZEMAX
    ∧ TrieStore.Get (TrieStore.new.Put ['a'] 0 1).2 0 ['a'] SIZEMAX = some 1 :=
  ⟨by decide, by decide⟩

/-- C7 (amended): an explicitly supplied version number above the current
maximum returns absence, provided it is not the reserved `2^64 - 1` sentinel
value (which the code interprets as "latest" instead). -/
theorem C7_out_of_range_version (s : TrieStore) (tag : Nat) (k : List Char)
    (version : Nat) (h : s.snapshots ≠ []) (hv : s.get_version < version)
    (hs : version ≠ SIZEMAX) :
    s.Get tag k version = none := by
  have hlen : 0 < s.snapshots.length := List.length_pos.mpr h
  have hne : s.snapshots.isEmpty = false := by
    cases hsn : s.snapshots.isEmpty
    · rfl
    · exact absurd (List.isEmpty_iff.mp hsn) h
  have hge : s.snapshots.length ≤ version := by
    rw [TrieStore.get_version, hne] at hv
    simp at hv
    omega
  simp [TrieStore.Get, hs, hge]

theorem C7_out_of_range_version_witness :
    TrieStore.new.Get 0 ['a'] 5 = none :=
  C7_out_of_range_version TrieStore.new 0 ['a'] 5 (List.cons_ne_nil _ _)
    (by decide) (by decide)

/-- C8: Type mismatch collapses to absence — a key stored with runtime tag `u`
queried at a different tag gives the same `none` that a missing key gives
(here compared with the empty trie's answer); no error is raised. -/
theorem C8_type_mismatch_is_absence (t : Trie) (k : List Char) (r n : TrieNode)
    (u w tag : Nat) (hr : t.root = some r) (hw : r.walk k = some n)
    (hv : n.is_value_node = true) (hval : n.value = some (u, w)) (hu : u ≠ tag) :
    t.Get tag k = none ∧ Trie.empty.Get tag k = none := by
  refine ⟨?_, rfl⟩
  simp [Trie.Get, hr, hw, hv, hval, hu]

theorem C8_type_mismatch_is_absence_witness :
    (Trie.empty.Put ['a'] 0 1 0).1.Get 1 ['a'] = none
    ∧ Trie.empty.Get 1 ['a'] = none :=
  C8_type_mismatch_is_absence (Trie.empty.Put ['a'] 0 1 0).1 ['a'] _ _ 0 1 1
    rfl rfl rfl rfl (by decide)

/-- C10: `Put` never no-ops — the returned trie's root is a fresh allocation,
never `operator==`-equal to the input trie (even when the key already holds an
equal value), and accordingly `TrieStore::Put` always appends one snapshot and
returns a strictly larger version number. -/
theorem C10_put_never_noop (t : Trie) (k : List Char) (tag v ctr : Nat)
    (s : TrieStore) (k2 : List Char) (tag2 v2 : Nat)
    (hf : t.rootFresh ctr = true) (hs : s.snapshots ≠ []) :
    ((t.Put k tag v ctr).1).eqTrie t = false
    ∧ (s.Put k2 tag2 v2).2.snapshots.length = s.snapshots.length + 1
    ∧ (s.Put k2 tag2 v2).1 = s.get_version + 1 := by
  refine ⟨?_, by simp [TrieStore.Put], storePut_version s k2 tag2 v2 hs⟩
  obtain ⟨root⟩ := t
  cases root with
  | none => simp [Trie.Put, Trie.eqTrie]
  | some r =>
    have hid : r.nid < ctr := by simpa [Trie.rootFresh] using hf
    simp [Trie.Put, Trie.eqTrie, putGo_nid]
    omega

theorem C10_put_never_noop_witness :
    (((Trie.empty.Put ['a'] 0 1 0).1.Put ['a'] 0 1 2).1).eqTrie
        (Trie.empty.Put ['a'] 0 1 0).1 = false
    ∧ (TrieStore.new.Put ['a'] 0 1).2.snapshots.length =
        TrieStore.new.snapshots.length + 1
    ∧ (TrieStore.new.Put ['a'] 0 1).1 = TrieStore.new.get_version + 1 :=
  C10_put_never_noop (Trie.empty.Put ['a'] 0 1 0).1 ['a'] 0 1 2
    TrieStore.new ['a'] 0 1 (by decide) (List.cons_ne_nil _ _)
